import Mathlib

/-!
Shallow embedding of the PanZoomRotate affine view-transform engine.

Source files embedded:
- src/affine/affine_transform.py (affine_transform, affine_inverse,
  affine_multiplication)
- src/ImageControl.py (class ImageControl: get_image,
  update_affine_transform_matrix, resize, load_image, reset_corners,
  get_coords_from_size, pan, zoom, rotate)

Modelling choices:
- Python float arithmetic is idealised as exact rational arithmetic (ℚ).
- All coordinate arrays that the engine ever builds have shape (2, 3)
  (three 2D points stored as columns) or (2, 1) (one point); they are
  embedded as `Coords` (a triple of `Vec2`) and `Vec2`.
- The 3x3 homogeneous matrices produced by `affine_transform` always have
  bottom row [0, 0, 1], and no code path ever reads that row, so a matrix
  is embedded as its 2x2 linear block (`Mtx2`) plus translation column
  (`AffMat`).
- `np.linalg.inv` raises `LinAlgError` exactly when its argument is
  singular; this is the guard `det = 0` below.  The `np.cos`/`np.sin`
  calls of `rotate` are modelled by passing the cosine and sine values.
- Python mutation-then-raise semantics: every stateful operation returns
  the final (possibly partially mutated) state together with
  `Option Err` — `some e` meaning the Python method raised `e` after
  performing the mutations that precede the raising call.
-/

/-- The two exception classes the engine can raise on its numeric paths:
`np.linalg.LinAlgError` and the Python `ZeroDivisionError`. -/
inductive Err where
  | linAlg
  | zeroDivision
deriving DecidableEq, Repr

/-- A 2D point/vector (one numpy column of shape (2, 1)). -/
structure Vec2 where
  x : ℚ
  y : ℚ
deriving DecidableEq, Repr

instance : Add Vec2 := ⟨fun u v => ⟨u.x + v.x, u.y + v.y⟩⟩
instance : Sub Vec2 := ⟨fun u v => ⟨u.x - v.x, u.y - v.y⟩⟩
instance : Neg Vec2 := ⟨fun u => ⟨-u.x, -u.y⟩⟩

@[simp] theorem Vec2.add_def (u v : Vec2) : u + v = ⟨u.x + v.x, u.y + v.y⟩ := rfl
@[simp] theorem Vec2.sub_def (u v : Vec2) : u - v = ⟨u.x - v.x, u.y - v.y⟩ := rfl
@[simp] theorem Vec2.neg_def (u : Vec2) : -u = ⟨-u.x, -u.y⟩ := rfl

/-- A 2x2 matrix [[a, b], [c, d]] (row major). -/
structure Mtx2 where
  a : ℚ
  b : ℚ
  c : ℚ
  d : ℚ
deriving DecidableEq, Repr

namespace Mtx2

/-- Matrix-vector product `m.dot v`. -/
def mulVec (m : Mtx2) (v : Vec2) : Vec2 :=
  ⟨m.a * v.x + m.b * v.y, m.c * v.x + m.d * v.y⟩

/-- Matrix-matrix product `m.dot n`. -/
def mul (m n : Mtx2) : Mtx2 :=
  ⟨m.a * n.a + m.b * n.c, m.a * n.b + m.b * n.d,
   m.c * n.a + m.d * n.c, m.c * n.b + m.d * n.d⟩

/-- Determinant. -/
def det (m : Mtx2) : ℚ := m.a * m.d - m.b * m.c

/-- `np.linalg.inv` for a 2x2 matrix (adjugate over determinant); only
meaningful when `det ≠ 0`, in which case numpy would not have raised. -/
def inv (m : Mtx2) : Mtx2 :=
  ⟨m.d / m.det, -m.b / m.det, -m.c / m.det, m.a / m.det⟩

/-- The identity matrix. -/
def one : Mtx2 := ⟨1, 0, 0, 1⟩

end Mtx2

/-- Three 2D points stored as the columns of a (2, 3) numpy array. -/
structure Coords where
  p0 : Vec2
  p1 : Vec2
  p2 : Vec2
deriving DecidableEq, Repr

namespace Coords

/-- numpy broadcast `coords + v` (adding a (2, 1) column to a (2, 3) array). -/
def addVec (b : Coords) (v : Vec2) : Coords := ⟨b.p0 + v, b.p1 + v, b.p2 + v⟩

/-- numpy broadcast `coords - v`. -/
def subVec (b : Coords) (v : Vec2) : Coords := ⟨b.p0 - v, b.p1 - v, b.p2 - v⟩

/-- The "delta" matrix of `affine_transform`: columns 1 and 2 minus
column 0, i.e. `(coords - offset)[:, 1:]`. -/
def delta (b : Coords) : Mtx2 :=
  ⟨b.p1.x - b.p0.x, b.p2.x - b.p0.x,
   b.p1.y - b.p0.y, b.p2.y - b.p0.y⟩

end Coords

namespace Mtx2

/-- Matrix product applied to a (2, 3) array column by column. -/
def mulCoords (m : Mtx2) (b : Coords) : Coords :=
  ⟨m.mulVec b.p0, m.mulVec b.p1, m.mulVec b.p2⟩

end Mtx2

/-- The 3x3 homogeneous affine matrix [[L, t], [0, 0, 1]], stored as its
2x2 linear block `lin` and translation column `t`. -/
structure AffMat where
  lin : Mtx2
  t : Vec2
deriving DecidableEq, Repr

namespace AffMat

/-- `affine_multiplication` applied to a single (2, 1) point:
append homogeneous 1, multiply, drop the last row. -/
def apply (m : AffMat) (v : Vec2) : Vec2 := m.lin.mulVec v + m.t

/-- `affine_multiplication` applied to a (2, 3) array of three points. -/
def applyCoords (m : AffMat) (b : Coords) : Coords :=
  ⟨m.apply b.p0, m.apply b.p1, m.apply b.p2⟩

/-- Composition of affine maps: `(m.comp n).apply v = m.apply (n.apply v)`. -/
def comp (m n : AffMat) : AffMat :=
  ⟨m.lin.mul n.lin, m.lin.mulVec n.t + m.t⟩

/-- The all-zero matrix `np.zeros((3, 3))` stored at construction time. -/
def zeroM : AffMat := ⟨⟨0, 0, 0, 0⟩, ⟨0, 0⟩⟩

end AffMat

/-- The matrix that `affine_transform(coords_in_frame1, coords_in_frame2)`
returns when `np.linalg.inv(delta_coords1)` does not raise:
`inner = delta2.dot(inv(delta1))`, `translation = offset2 - inner.dot(offset1)`
where `offset` is column 0 of each frame. -/
def solveMat (b1 b2 : Coords) : AffMat :=
  let inner := b2.delta.mul b1.delta.inv
  ⟨inner, b2.p0 - inner.mulVec b1.p0⟩

/-- `affine_transform` from src/affine/affine_transform.py for the (2, 3)
inputs the engine passes (shape checks statically satisfied, no transpose).
Raises `LinAlgError` exactly when `delta_coords1` is singular. -/
def affine_transform (b1 b2 : Coords) : Except Err AffMat :=
  if b1.delta.det = 0 then .error .linAlg else .ok (solveMat b1 b2)

/-- The matrix `affine_inverse` returns when `np.linalg.inv(inner_matrix)`
does not raise: `inner_inverse` with translation `-inner_inverse.dot(t)`. -/
def invAff (m : AffMat) : AffMat := ⟨m.lin.inv, -(m.lin.inv.mulVec m.t)⟩

/-- `affine_inverse` from src/affine/affine_transform.py.  Raises
`LinAlgError` exactly when the 2x2 linear block is singular. -/
def affine_inverse (m : AffMat) : Except Err AffMat :=
  if m.lin.det = 0 then .error .linAlg else .ok (invAff m)

/-- An OpenCV raster (`np.ndarray`): height, width, channel count, and
pixel data.  The engine only ever reads `size` (element count) and
`shape[:2]`; the freshly constructed `np.ndarray((0,))` is the raster
with all dimensions 0. -/
structure Raster where
  h : ℕ
  w : ℕ
  chan : ℕ
  data : ℕ → ℕ → ℕ → ℕ

namespace Raster

/-- `ndarray.size`: the total number of elements. -/
def size (r : Raster) : ℕ := r.h * r.w * r.chan

/-- `np.ndarray((0,))`, the placeholder empty raster. -/
def empty : Raster := ⟨0, 0, 0, fun _ _ _ => 0⟩

end Raster

/-- The mutable fields of class `ImageControl`. -/
structure ImageControl where
  core_image : Raster
  affine_transform_matrix : AffMat
  corners : Coords
  size : ℚ × ℚ
  background_color : ℕ × ℕ × ℕ

/-- `ImageControl.get_coords_from_size`: the canonical output basis
`[[0, size[0], 0], [0, 0, size[1]]]` (top-left, top-right, bottom-left
corners of a `size`-shaped image, as columns). -/
def get_coords_from_size (size : ℚ × ℚ) : Coords :=
  ⟨⟨0, 0⟩, ⟨size.1, 0⟩, ⟨0, size.2⟩⟩

/-- `ImageControl.update_affine_transform_matrix`: store
`affine_transform(get_coords_from_size(size), corners)`; if that call
raises, the exception propagates and the field is left unchanged. -/
def update_affine_transform_matrix (s : ImageControl) : ImageControl × Option Err :=
  match affine_transform (get_coords_from_size s.size) s.corners with
  | .ok m => ({ s with affine_transform_matrix := m }, none)
  | .error e => (s, some e)

/-- The result of `ImageControl.get_image`: a directly returned raster
(the first two `return` paths), the contract with the external resampler
`affine_image_transform`/`cv2.warpAffine` (source raster warped by the
inverse matrix into a `size`-shaped output over `background_color`), or a
propagated exception. -/
inductive GetImageResult where
  | raster (r : Raster)
  | resampled (src : Raster) (invMat : AffMat) (size : ℚ × ℚ) (bg : ℕ × ℕ × ℕ)
  | error (e : Err)

/-- `ImageControl.get_image`.  Note that the
`update_affine_transform_matrix` call sits before the `try` block, so an
exception raised there propagates; only `LinAlgError` raised inside the
`try` (i.e. by `affine_inverse`) is converted to `np.ndarray((0,))`. -/
def get_image (s : ImageControl) : ImageControl × GetImageResult :=
  if s.core_image.size = 0 then (s, .raster s.core_image)
  else
    match update_affine_transform_matrix s with
    | (s1, some e) => (s1, .error e)
    | (s1, none) =>
      match affine_inverse s1.affine_transform_matrix with
      | .error _ => (s1, .raster Raster.empty)
      | .ok minv => (s1, .resampled s1.core_image minv s1.size s1.background_color)

/-- `ImageControl.pan`: map the shifted canonical basis through the
stored matrix, then refresh the matrix. -/
def pan (s : ImageControl) (delta : ℚ × ℚ) : ImageControl × Option Err :=
  if s.core_image.size = 0 then (s, none)
  else
    let new_corners :=
      s.affine_transform_matrix.applyCoords
        ((get_coords_from_size s.size).addVec ⟨delta.1, delta.2⟩)
    update_affine_transform_matrix { s with corners := new_corners }

/-- `ImageControl.zoom` with a per-axis factor (a Python scalar factor f
is the pair (f, f)); `none` for the center means the default
`size / 2`. -/
def zoom (s : ImageControl) (zoom_factor : ℚ × ℚ) (zoom_center : Option Vec2) :
    ImageControl × Option Err :=
  if s.core_image.size = 0 then (s, none)
  else
    let center : Vec2 := zoom_center.getD ⟨s.size.1 / 2, s.size.2 / 2⟩
    let zoom_matrix : Mtx2 := ⟨zoom_factor.1, 0, 0, zoom_factor.2⟩
    let d : Vec2 := zoom_matrix.mulVec center - center
    let new_corners :=
      s.affine_transform_matrix.applyCoords
        ((zoom_matrix.mulCoords (get_coords_from_size s.size)).subVec d)
    update_affine_transform_matrix { s with corners := new_corners }

/-- `ImageControl.rotate`, with `np.cos(rad_angle)` and
`np.sin(rad_angle)` supplied as the values `cosA`, `sinA`; `none` for the
center means the default `size / 2`. -/
def rotate (s : ImageControl) (cosA sinA : ℚ) (rot_center : Option Vec2) :
    ImageControl × Option Err :=
  if s.core_image.size = 0 then (s, none)
  else
    let center : Vec2 := rot_center.getD ⟨s.size.1 / 2, s.size.2 / 2⟩
    let transformed_center := s.affine_transform_matrix.apply center
    let rotation_matrix : Mtx2 := ⟨cosA, -sinA, sinA, cosA⟩
    let new_corners :=
      (rotation_matrix.mulCoords (s.corners.subVec transformed_center)).addVec
        transformed_center
    update_affine_transform_matrix { s with corners := new_corners }

/-- `ImageControl.resize`: when an image is loaded and the old size is
not (0, 0), first zoom by the per-axis ratio (raising
`ZeroDivisionError` if an old dimension is 0), then set the size, then
refresh the matrix when an image is loaded. -/
def resize (s : ImageControl) (new_size : ℚ × ℚ) : ImageControl × Option Err :=
  if s.core_image.size ≠ 0 ∧ s.size ≠ (0, 0) then
    if s.size.1 = 0 ∨ s.size.2 = 0 then (s, some .zeroDivision)
    else
      match zoom s (new_size.1 / s.size.1, new_size.2 / s.size.2) none with
      | (s1, some e) => (s1, some e)
      | (s1, none) =>
        let s2 := { s1 with size := new_size }
        if s2.core_image.size ≠ 0 then update_affine_transform_matrix s2 else (s2, none)
  else
    let s2 := { s with size := new_size }
    if s2.core_image.size ≠ 0 then update_affine_transform_matrix s2 else (s2, none)

/-- `ImageControl.reset_corners`: aspect-correct centered fit of the full
image in the viewport, three branches on image aspect (h/w) versus
viewport aspect (size[1]/size[0]). -/
def reset_corners (s : ImageControl) : ImageControl × Option Err :=
  if s.size.1 = 0 ∨ s.size.2 = 0 ∨ s.core_image.size = 0 ∨
      s.core_image.h = 0 ∨ s.core_image.w = 0 then (s, none)
  else
    let imh : ℚ := s.core_image.h
    let imw : ℚ := s.core_image.w
    let fit : ℚ × ℚ × Vec2 :=
      if imh / imw = s.size.2 / s.size.1 then
        (imw, imh, ⟨0, 0⟩)
      else if imh / imw > s.size.2 / s.size.1 then
        let height := imh
        let width := s.size.1 / s.size.2 * height
        (width, height, ⟨(width - imw) / 2, 0⟩)
      else
        let width := imw
        let height := s.size.2 / s.size.1 * width
        (width, height, ⟨0, (height - imh) / 2⟩)
    update_affine_transform_matrix
      { s with corners := (get_coords_from_size (fit.1, fit.2.1)).subVec fit.2.2 }

/-- `ImageControl.load_image`: replace the raster, then `reset_corners`. -/
def load_image (s : ImageControl) (img : Raster) : ImageControl × Option Err :=
  reset_corners { s with core_image := img }

/-- `ImageControl.__init__`: zeroed matrix and corners, given size and
background color; optionally load an initial image. -/
def initImageControl (image : Option Raster) (size : ℚ × ℚ) (bg : ℕ × ℕ × ℕ) :
    ImageControl × Option Err :=
  let s : ImageControl := ⟨Raster.empty, AffMat.zeroM, ⟨⟨0, 0⟩, ⟨0, 0⟩, ⟨0, 0⟩⟩, size, bg⟩
  match image with
  | none => (s, none)
  | some img => load_image s img

/-! ### Algebraic facts about the affine solver -/

theorem Mtx2.det_mul (m n : Mtx2) : (m.mul n).det = m.det * n.det := by
  simp only [Mtx2.mul, Mtx2.det]; ring

theorem Mtx2.mul_inv_self (m : Mtx2) (h : m.det ≠ 0) : m.mul m.inv = Mtx2.one := by
  obtain ⟨a, b, c, d⟩ := m
  simp only [Mtx2.det] at h
  simp only [Mtx2.mul, Mtx2.inv, Mtx2.det, Mtx2.one, Mtx2.mk.injEq]
  refine ⟨?_, ?_, ?_, ?_⟩ <;> field_simp <;> ring

theorem Mtx2.det_inv (m : Mtx2) (h : m.det ≠ 0) : m.inv.det = m.det⁻¹ := by
  have h1 := congrArg Mtx2.det (m.mul_inv_self h)
  rw [Mtx2.det_mul] at h1
  have h2 : Mtx2.one.det = 1 := by simp [Mtx2.one, Mtx2.det]
  rw [h2] at h1
  exact eq_inv_of_mul_eq_one_right h1

theorem AffMat.apply_comp (m n : AffMat) (v : Vec2) :
    (m.comp n).apply v = m.apply (n.apply v) := by
  obtain ⟨⟨a, b, c, d⟩, ⟨tx, ty⟩⟩ := m
  obtain ⟨⟨a', b', c', d'⟩, ⟨ux, uy⟩⟩ := n
  simp only [AffMat.comp, AffMat.apply, Mtx2.mul, Mtx2.mulVec, Vec2.add_def, Vec2.mk.injEq]
  constructor <;> ring

/-- `solveMat` interpolates: the returned matrix maps the three points of
`basis1` exactly onto the three points of `basis2` (when `delta1` was
invertible, i.e. `np.linalg.inv` did not raise). -/
theorem solveMat_applyCoords_self (b1 b2 : Coords) (h : b1.delta.det ≠ 0) :
    (solveMat b1 b2).applyCoords b1 = b2 := by
  obtain ⟨⟨x0, y0⟩, ⟨x1, y1⟩, ⟨x2, y2⟩⟩ := b1
  obtain ⟨⟨u0, v0⟩, ⟨u1, v1⟩, ⟨u2, v2⟩⟩ := b2
  simp only [Coords.delta, Mtx2.det] at h
  simp only [solveMat, AffMat.applyCoords, AffMat.apply, Mtx2.mul, Mtx2.inv, Mtx2.mulVec,
    Coords.delta, Mtx2.det, Vec2.add_def, Vec2.sub_def, Coords.mk.injEq, Vec2.mk.injEq]
  refine ⟨⟨?_, ?_⟩, ⟨?_, ?_⟩, ⟨?_, ?_⟩⟩ <;> field_simp <;> ring

/-- `solveMat` reproduces an affine map from its values on any
non-degenerate basis. -/
theorem solveMat_of_applyCoords (b : Coords) (N : AffMat) (h : b.delta.det ≠ 0) :
    solveMat b (N.applyCoords b) = N := by
  obtain ⟨⟨x0, y0⟩, ⟨x1, y1⟩, ⟨x2, y2⟩⟩ := b
  obtain ⟨⟨a, bb, c, d⟩, ⟨tx, ty⟩⟩ := N
  simp only [Coords.delta, Mtx2.det] at h
  simp only [solveMat, AffMat.applyCoords, AffMat.apply, Mtx2.mul, Mtx2.inv, Mtx2.mulVec,
    Coords.delta, Mtx2.det, Vec2.add_def, Vec2.sub_def, AffMat.mk.injEq, Mtx2.mk.injEq,
    Vec2.mk.injEq]
  refine ⟨⟨?_, ?_, ?_, ?_⟩, ?_, ?_⟩ <;> field_simp <;> ring

/-- The inverse matrix produced by `affine_inverse` undoes the forward
map exactly (when the linear block was invertible). -/
theorem invAff_apply_apply (m : AffMat) (p : Vec2) (h : m.lin.det ≠ 0) :
    (invAff m).apply (m.apply p) = p := by
  obtain ⟨⟨a, b, c, d⟩, ⟨tx, ty⟩⟩ := m
  obtain ⟨px, py⟩ := p
  simp only [Mtx2.det] at h
  simp only [invAff, AffMat.apply, Mtx2.inv, Mtx2.mulVec, Mtx2.det, Vec2.add_def,
    Vec2.neg_def, Vec2.mk.injEq]
  constructor <;> field_simp <;> ring

/-- Determinant of the linear block of a solved matrix. -/
theorem solveMat_lin_det (b1 b2 : Coords) (h : b1.delta.det ≠ 0) :
    (solveMat b1 b2).lin.det = b2.delta.det / b1.delta.det := by
  show (b2.delta.mul b1.delta.inv).det = _
  rw [Mtx2.det_mul, Mtx2.det_inv _ h, div_eq_mul_inv]

/-- Shifting all three points of a basis by the same vector leaves its
delta matrix unchanged. -/
theorem Coords.delta_addVec (b : Coords) (v : Vec2) : (b.addVec v).delta = b.delta := by
  simp only [Coords.addVec, Coords.delta, Vec2.add_def, Mtx2.mk.injEq]
  refine ⟨?_, ?_, ?_, ?_⟩ <;> ring

theorem Coords.delta_subVec (b : Coords) (v : Vec2) : (b.subVec v).delta = b.delta := by
  simp only [Coords.subVec, Coords.delta, Vec2.sub_def, Mtx2.mk.injEq]
  refine ⟨?_, ?_, ?_, ?_⟩ <;> ring

/-- Applying an affine map to a basis multiplies its delta matrix by the
linear block on the left. -/
theorem AffMat.delta_applyCoords (m : AffMat) (b : Coords) :
    (m.applyCoords b).delta = m.lin.mul b.delta := by
  obtain ⟨⟨a, bb, c, d⟩, ⟨tx, ty⟩⟩ := m
  obtain ⟨⟨x0, y0⟩, ⟨x1, y1⟩, ⟨x2, y2⟩⟩ := b
  simp only [AffMat.applyCoords, AffMat.apply, Mtx2.mulVec, Mtx2.mul, Coords.delta,
    Vec2.add_def, Mtx2.mk.injEq]
  refine ⟨?_, ?_, ?_, ?_⟩ <;> ring

theorem Mtx2.delta_mulCoords (m : Mtx2) (b : Coords) :
    (m.mulCoords b).delta = m.mul b.delta := by
  obtain ⟨a, bb, c, d⟩ := m
  obtain ⟨⟨x0, y0⟩, ⟨x1, y1⟩, ⟨x2, y2⟩⟩ := b
  simp only [Mtx2.mulCoords, Mtx2.mulVec, Mtx2.mul, Coords.delta, Mtx2.mk.injEq]
  refine ⟨?_, ?_, ?_, ?_⟩ <;> ring

/-- The delta matrix of the canonical output basis is diag(width, height). -/
theorem delta_get_coords_from_size (size : ℚ × ℚ) :
    (get_coords_from_size size).delta = ⟨size.1, 0, 0, size.2⟩ := by
  simp only [get_coords_from_size, Coords.delta, Mtx2.mk.injEq]
  refine ⟨?_, ?_, ?_, ?_⟩ <;> ring

/-! ### State-level helper lemmas -/

/-- The stored matrix agrees with the matrix derived from (size, corners).
Every reachable state in which `update_affine_transform_matrix` last
succeeded satisfies this; each mutator re-establishes it. -/
def Consistent (s : ImageControl) : Prop :=
  s.affine_transform_matrix = solveMat (get_coords_from_size s.size) s.corners

instance (s : ImageControl) : Decidable (Consistent s) := by
  unfold Consistent; infer_instance

theorem det_coords_size (size : ℚ × ℚ) :
    (get_coords_from_size size).delta.det = size.1 * size.2 := by
  rw [delta_get_coords_from_size]
  simp [Mtx2.det]

theorem update_spec (s : ImageControl)
    (h : (get_coords_from_size s.size).delta.det ≠ 0) :
    update_affine_transform_matrix s =
      ({ s with affine_transform_matrix :=
          solveMat (get_coords_from_size s.size) s.corners }, none) := by
  simp [update_affine_transform_matrix, affine_transform, h]

theorem update_err (s : ImageControl)
    (h : (get_coords_from_size s.size).delta.det = 0) :
    update_affine_transform_matrix s = (s, some Err.linAlg) := by
  simp [update_affine_transform_matrix, affine_transform, h]

theorem update_frame (s : ImageControl) :
    (update_affine_transform_matrix s).1.core_image = s.core_image ∧
    (update_affine_transform_matrix s).1.corners = s.corners ∧
    (update_affine_transform_matrix s).1.size = s.size ∧
    (update_affine_transform_matrix s).1.background_color = s.background_color := by
  unfold update_affine_transform_matrix
  cases haff : affine_transform (get_coords_from_size s.size) s.corners <;> simp

/-- Characterization of `pan` on a state with a loaded image and a
non-degenerate viewport size. -/
theorem pan_spec (s : ImageControl) (d : ℚ × ℚ) (h0 : s.core_image.size ≠ 0)
    (hdet : (get_coords_from_size s.size).delta.det ≠ 0) :
    pan s d =
      (⟨s.core_image,
        solveMat (get_coords_from_size s.size)
          (s.affine_transform_matrix.applyCoords
            ((get_coords_from_size s.size).addVec ⟨d.1, d.2⟩)),
        s.affine_transform_matrix.applyCoords
          ((get_coords_from_size s.size).addVec ⟨d.1, d.2⟩),
        s.size, s.background_color⟩, none) := by
  simp only [pan, if_neg h0]
  exact update_spec _ hdet

/-- Characterization of `zoom` on a state with a loaded image and a
non-degenerate viewport size. -/
theorem zoom_spec (s : ImageControl) (f : ℚ × ℚ) (zc : Option Vec2)
    (h0 : s.core_image.size ≠ 0)
    (hdet : (get_coords_from_size s.size).delta.det ≠ 0) :
    zoom s f zc =
      (⟨s.core_image,
        solveMat (get_coords_from_size s.size)
          (s.affine_transform_matrix.applyCoords
            (((⟨f.1, 0, 0, f.2⟩ : Mtx2).mulCoords (get_coords_from_size s.size)).subVec
              ((⟨f.1, 0, 0, f.2⟩ : Mtx2).mulVec (zc.getD ⟨s.size.1 / 2, s.size.2 / 2⟩) -
                zc.getD ⟨s.size.1 / 2, s.size.2 / 2⟩))),
        s.affine_transform_matrix.applyCoords
          (((⟨f.1, 0, 0, f.2⟩ : Mtx2).mulCoords (get_coords_from_size s.size)).subVec
            ((⟨f.1, 0, 0, f.2⟩ : Mtx2).mulVec (zc.getD ⟨s.size.1 / 2, s.size.2 / 2⟩) -
              zc.getD ⟨s.size.1 / 2, s.size.2 / 2⟩)),
        s.size, s.background_color⟩, none) := by
  simp only [zoom, if_neg h0]
  exact update_spec _ hdet

/-- Characterization of `rotate` on a state with a loaded image and a
non-degenerate viewport size. -/
theorem rotate_spec (s : ImageControl) (cosA sinA : ℚ) (rc : Option Vec2)
    (h0 : s.core_image.size ≠ 0)
    (hdet : (get_coords_from_size s.size).delta.det ≠ 0) :
    rotate s cosA sinA rc =
      (⟨s.core_image,
        solveMat (get_coords_from_size s.size)
          (((⟨cosA, -sinA, sinA, cosA⟩ : Mtx2).mulCoords
              (s.corners.subVec
                (s.affine_transform_matrix.apply (rc.getD ⟨s.size.1 / 2, s.size.2 / 2⟩)))).addVec
            (s.affine_transform_matrix.apply (rc.getD ⟨s.size.1 / 2, s.size.2 / 2⟩))),
        ((⟨cosA, -sinA, sinA, cosA⟩ : Mtx2).mulCoords
            (s.corners.subVec
              (s.affine_transform_matrix.apply (rc.getD ⟨s.size.1 / 2, s.size.2 / 2⟩)))).addVec
          (s.affine_transform_matrix.apply (rc.getD ⟨s.size.1 / 2, s.size.2 / 2⟩)),
        s.size, s.background_color⟩, none) := by
  simp only [rotate, if_neg h0]
  exact update_spec _ hdet

/-! ### Affine-map representation of the basis manipulations -/

/-- Pure translation as an affine matrix (proof-layer helper). -/
def translateM (v : Vec2) : AffMat := ⟨Mtx2.one, v⟩

theorem applyCoords_comp (m n : AffMat) (b : Coords) :
    m.applyCoords (n.applyCoords b) = (m.comp n).applyCoords b := by
  simp only [AffMat.applyCoords, AffMat.apply_comp]

theorem addVec_eq_translateM (b : Coords) (v : Vec2) :
    b.addVec v = (translateM v).applyCoords b := by
  obtain ⟨⟨x0, y0⟩, ⟨x1, y1⟩, ⟨x2, y2⟩⟩ := b
  obtain ⟨vx, vy⟩ := v
  simp only [Coords.addVec, translateM, AffMat.applyCoords, AffMat.apply, Mtx2.one,
    Mtx2.mulVec, Vec2.add_def, Coords.mk.injEq, Vec2.mk.injEq]
  refine ⟨⟨?_, ?_⟩, ⟨?_, ?_⟩, ⟨?_, ?_⟩⟩ <;> ring

/-- The new output basis `zm.dot(basis) - d` built by `zoom` is the affine map
(zm, -d) applied to the basis. -/
theorem mulCoords_subVec_eq (zm : Mtx2) (b : Coords) (dv : Vec2) :
    (zm.mulCoords b).subVec dv = (AffMat.mk zm (-dv)).applyCoords b := by
  obtain ⟨za, zb, zc, zd⟩ := zm
  obtain ⟨⟨x0, y0⟩, ⟨x1, y1⟩, ⟨x2, y2⟩⟩ := b
  obtain ⟨dx, dy⟩ := dv
  simp only [Mtx2.mulCoords, Coords.subVec, AffMat.applyCoords, AffMat.apply, Mtx2.mulVec,
    Vec2.add_def, Vec2.sub_def, Vec2.neg_def, Coords.mk.injEq, Vec2.mk.injEq]
  refine ⟨⟨?_, ?_⟩, ⟨?_, ?_⟩, ⟨?_, ?_⟩⟩ <;> ring

/-- The expression `rm.dot(corners - tc) + tc` built by `rotate` is the affine map
(rm, tc - rm.dot(tc)) applied to the corners. -/
theorem rotAbout_eq (rm : Mtx2) (b : Coords) (tc : Vec2) :
    (rm.mulCoords (b.subVec tc)).addVec tc =
      (AffMat.mk rm (tc - rm.mulVec tc)).applyCoords b := by
  obtain ⟨ra, rb, rc, rd⟩ := rm
  obtain ⟨⟨x0, y0⟩, ⟨x1, y1⟩, ⟨x2, y2⟩⟩ := b
  obtain ⟨tx, ty⟩ := tc
  simp only [Mtx2.mulCoords, Coords.subVec, Coords.addVec, AffMat.applyCoords, AffMat.apply,
    Mtx2.mulVec, Vec2.add_def, Vec2.sub_def, Coords.mk.injEq, Vec2.mk.injEq]
  refine ⟨⟨?_, ?_⟩, ⟨?_, ?_⟩, ⟨?_, ?_⟩⟩ <;> ring

theorem comp_translate_cancel (m : AffMat) (vx vy : ℚ) :
    (m.comp (translateM ⟨vx, vy⟩)).comp (translateM ⟨-vx, -vy⟩) = m := by
  obtain ⟨⟨a, b, c, d⟩, ⟨tx, ty⟩⟩ := m
  simp only [AffMat.comp, translateM, Mtx2.one, Mtx2.mul, Mtx2.mulVec, Vec2.add_def,
    AffMat.mk.injEq, Mtx2.mk.injEq, Vec2.mk.injEq]
  refine ⟨⟨?_, ?_, ?_, ?_⟩, ?_, ?_⟩ <;> ring

/-- On a consistent state the stored matrix maps the canonical output
basis exactly onto the corners. -/
theorem consistent_apply_basis (s : ImageControl) (hC : Consistent s)
    (hdet : (get_coords_from_size s.size).delta.det ≠ 0) :
    s.affine_transform_matrix.applyCoords (get_coords_from_size s.size) = s.corners := by
  rw [hC]
  exact solveMat_applyCoords_self _ _ hdet

/-- Re-solving after pushing the canonical basis through an extra affine
map composes the maps. -/
theorem solveMat_applyCoords_applyCoords (bas : Coords) (m k : AffMat)
    (hdet : bas.delta.det ≠ 0) :
    solveMat bas (m.applyCoords (k.applyCoords bas)) = m.comp k := by
  rw [applyCoords_comp]
  exact solveMat_of_applyCoords bas (m.comp k) hdet


/-! ### Component equations for the mutators -/

theorem pan_snd (s : ImageControl) (d : ℚ × ℚ) (h0 : s.core_image.size ≠ 0)
    (hdet : (get_coords_from_size s.size).delta.det ≠ 0) :
    (pan s d).2 = none := by
  rw [pan_spec s d h0 hdet]

theorem pan_corners (s : ImageControl) (d : ℚ × ℚ) (h0 : s.core_image.size ≠ 0)
    (hdet : (get_coords_from_size s.size).delta.det ≠ 0) :
    (pan s d).1.corners =
      s.affine_transform_matrix.applyCoords
        ((get_coords_from_size s.size).addVec ⟨d.1, d.2⟩) := by
  rw [pan_spec s d h0 hdet]

theorem pan_matrix (s : ImageControl) (d : ℚ × ℚ) (h0 : s.core_image.size ≠ 0)
    (hdet : (get_coords_from_size s.size).delta.det ≠ 0) :
    (pan s d).1.affine_transform_matrix =
      solveMat (get_coords_from_size s.size)
        (s.affine_transform_matrix.applyCoords
          ((get_coords_from_size s.size).addVec ⟨d.1, d.2⟩)) := by
  rw [pan_spec s d h0 hdet]

theorem zoom_snd (s : ImageControl) (f : ℚ × ℚ) (zc : Option Vec2)
    (h0 : s.core_image.size ≠ 0)
    (hdet : (get_coords_from_size s.size).delta.det ≠ 0) :
    (zoom s f zc).2 = none := by
  rw [zoom_spec s f zc h0 hdet]

theorem zoom_corners (s : ImageControl) (f : ℚ × ℚ) (zc : Option Vec2)
    (h0 : s.core_image.size ≠ 0)
    (hdet : (get_coords_from_size s.size).delta.det ≠ 0) :
    (zoom s f zc).1.corners =
      s.affine_transform_matrix.applyCoords
        (((⟨f.1, 0, 0, f.2⟩ : Mtx2).mulCoords (get_coords_from_size s.size)).subVec
          ((⟨f.1, 0, 0, f.2⟩ : Mtx2).mulVec (zc.getD ⟨s.size.1 / 2, s.size.2 / 2⟩) -
            zc.getD ⟨s.size.1 / 2, s.size.2 / 2⟩)) := by
  rw [zoom_spec s f zc h0 hdet]

theorem zoom_matrix (s : ImageControl) (f : ℚ × ℚ) (zc : Option Vec2)
    (h0 : s.core_image.size ≠ 0)
    (hdet : (get_coords_from_size s.size).delta.det ≠ 0) :
    (zoom s f zc).1.affine_transform_matrix =
      solveMat (get_coords_from_size s.size) (zoom s f zc).1.corners := by
  rw [zoom_spec s f zc h0 hdet]

theorem rotate_snd (s : ImageControl) (cosA sinA : ℚ) (rc : Option Vec2)
    (h0 : s.core_image.size ≠ 0)
    (hdet : (get_coords_from_size s.size).delta.det ≠ 0) :
    (rotate s cosA sinA rc).2 = none := by
  rw [rotate_spec s cosA sinA rc h0 hdet]

theorem rotate_corners (s : ImageControl) (cosA sinA : ℚ) (rc : Option Vec2)
    (h0 : s.core_image.size ≠ 0)
    (hdet : (get_coords_from_size s.size).delta.det ≠ 0) :
    (rotate s cosA sinA rc).1.corners =
      ((⟨cosA, -sinA, sinA, cosA⟩ : Mtx2).mulCoords
          (s.corners.subVec
            (s.affine_transform_matrix.apply (rc.getD ⟨s.size.1 / 2, s.size.2 / 2⟩)))).addVec
        (s.affine_transform_matrix.apply (rc.getD ⟨s.size.1 / 2, s.size.2 / 2⟩)) := by
  rw [rotate_spec s cosA sinA rc h0 hdet]

theorem rotate_matrix (s : ImageControl) (cosA sinA : ℚ) (rc : Option Vec2)
    (h0 : s.core_image.size ≠ 0)
    (hdet : (get_coords_from_size s.size).delta.det ≠ 0) :
    (rotate s cosA sinA rc).1.affine_transform_matrix =
      solveMat (get_coords_from_size s.size) (rotate s cosA sinA rc).1.corners := by
  rw [rotate_spec s cosA sinA rc h0 hdet]

/-! ### Unconditional frame equations (both guard branches) -/

theorem pan_core_image (s : ImageControl) (d : ℚ × ℚ) :
    (pan s d).1.core_image = s.core_image := by
  unfold pan; split
  · rfl
  · exact (update_frame _).1

theorem pan_size (s : ImageControl) (d : ℚ × ℚ) : (pan s d).1.size = s.size := by
  unfold pan; split
  · rfl
  · exact (update_frame _).2.2.1

theorem pan_background (s : ImageControl) (d : ℚ × ℚ) :
    (pan s d).1.background_color = s.background_color := by
  unfold pan; split
  · rfl
  · exact (update_frame _).2.2.2

theorem zoom_core_image (s : ImageControl) (f : ℚ × ℚ) (zc : Option Vec2) :
    (zoom s f zc).1.core_image = s.core_image := by
  unfold zoom; split
  · rfl
  · exact (update_frame _).1

theorem zoom_size (s : ImageControl) (f : ℚ × ℚ) (zc : Option Vec2) :
    (zoom s f zc).1.size = s.size := by
  unfold zoom; split
  · rfl
  · exact (update_frame _).2.2.1

theorem zoom_background (s : ImageControl) (f : ℚ × ℚ) (zc : Option Vec2) :
    (zoom s f zc).1.background_color = s.background_color := by
  unfold zoom; split
  · rfl
  · exact (update_frame _).2.2.2

theorem rotate_core_image (s : ImageControl) (cosA sinA : ℚ) (rc : Option Vec2) :
    (rotate s cosA sinA rc).1.core_image = s.core_image := by
  unfold rotate; split
  · rfl
  · exact (update_frame _).1

theorem rotate_size (s : ImageControl) (cosA sinA : ℚ) (rc : Option Vec2) :
    (rotate s cosA sinA rc).1.size = s.size := by
  unfold rotate; split
  · rfl
  · exact (update_frame _).2.2.1

theorem rotate_background (s : ImageControl) (cosA sinA : ℚ) (rc : Option Vec2) :
    (rotate s cosA sinA rc).1.background_color = s.background_color := by
  unfold rotate; split
  · rfl
  · exact (update_frame _).2.2.2

theorem get_image_frame (s : ImageControl) :
    (get_image s).1.core_image = s.core_image ∧
    (get_image s).1.corners = s.corners ∧
    (get_image s).1.size = s.size ∧
    (get_image s).1.background_color = s.background_color := by
  have hf := update_frame s
  unfold get_image
  split
  · exact ⟨rfl, rfl, rfl, rfl⟩
  · rcases hu : update_affine_transform_matrix s with ⟨s1, e⟩
    rw [hu] at hf
    rcases e with _ | e
    · rcases hinv : affine_inverse s1.affine_transform_matrix with e' | minv <;>
        simpa [hinv] using hf
    · simpa using hf

/-! ### Concrete states for witnesses -/

/-- A loaded 8x6x3 source raster (size 144 ≠ 0). -/
def demoRaster : Raster := ⟨8, 6, 3, fun _ _ _ => 7⟩

/-- Sample non-collinear corners. -/
def demoCorners : Coords := ⟨⟨1, 2⟩, ⟨5, 2⟩, ⟨1, 7⟩⟩

/-- A consistent HasImage state: stored matrix freshly derived from
(size, corners), as every mutator leaves it. -/
def mkConsistent (corners : Coords) (size : ℚ × ℚ) : ImageControl :=
  ⟨demoRaster, solveMat (get_coords_from_size size) corners, corners, size, (0, 0, 0)⟩

/-- C7: For every HasImage state with non-collinear corners and nonzero
size dimensions, and for every delta d, performing pan(d) and then
pan(-d) raises nothing and restores the corners to their original values
exactly (exact rational arithmetic models the claim, which says exact
in exact arithmetic).  `Consistent` states that the stored matrix is the one
derived from (corners, size), which holds in every reachable HasImage
state, whatever prior zoom/rotation produced it. -/
theorem pan_inverse_pan_restores_corners (s : ImageControl) (d : ℚ × ℚ)
    (h0 : s.core_image.size ≠ 0) (h1 : s.size.1 ≠ 0) (h2 : s.size.2 ≠ 0)
    (hcor : s.corners.delta.det ≠ 0) (hC : Consistent s) :
    (pan s d).2 = none ∧
    (pan (pan s d).1 (-d.1, -d.2)).2 = none ∧
    (pan (pan s d).1 (-d.1, -d.2)).1.corners = s.corners := by
  have hdet : (get_coords_from_size s.size).delta.det ≠ 0 := by
    rw [det_coords_size]; exact mul_ne_zero h1 h2
  have A2 := pan_corners s d h0 hdet
  have A5 := pan_matrix s d h0 hdet
  have A3 := pan_core_image s d
  have A4 := pan_size s d
  have B0 : (pan s d).1.core_image.size ≠ 0 := by rw [A3]; exact h0
  have Bdet : (get_coords_from_size (pan s d).1.size).delta.det ≠ 0 := by
    rw [A4]; exact hdet
  refine ⟨pan_snd s d h0 hdet, pan_snd _ _ B0 Bdet, ?_⟩
  have B2 := pan_corners _ (-d.1, -d.2) B0 Bdet
  rw [B2, A5, A4]
  simp only [addVec_eq_translateM]
  rw [solveMat_applyCoords_applyCoords _ _ _ hdet]
  rw [applyCoords_comp]
  rw [comp_translate_cancel]
  exact consistent_apply_basis s hC hdet

/-- Witness for C7 at a concrete consistent state and delta. -/
theorem pan_inverse_pan_restores_corners_witness :
    (mkConsistent demoCorners (10, 8)).core_image.size ≠ 0 ∧
    (mkConsistent demoCorners (10, 8)).size.1 ≠ 0 ∧
    (mkConsistent demoCorners (10, 8)).size.2 ≠ 0 ∧
    (mkConsistent demoCorners (10, 8)).corners.delta.det ≠ 0 ∧
    Consistent (mkConsistent demoCorners (10, 8)) ∧
    ((pan (pan (mkConsistent demoCorners (10, 8)) (3, 4)).1 (-(3 : ℚ), -(4 : ℚ))).1.corners =
      (mkConsistent demoCorners (10, 8)).corners) :=
  ⟨by decide, by norm_num [mkConsistent], by norm_num [mkConsistent],
    by norm_num [mkConsistent, demoCorners, Coords.delta, Mtx2.det], rfl,
    ((pan_inverse_pan_restores_corners (mkConsistent demoCorners (10, 8)) (3, 4)
      (by decide) (by norm_num [mkConsistent]) (by norm_num [mkConsistent])
      (by norm_num [mkConsistent, demoCorners, Coords.delta, Mtx2.det]) rfl).2.2)⟩

/-- C5: Zoom anchor invariance.  On a HasImage state with non-collinear
corners, nonzero size dimensions and a consistent stored matrix (as in
every reachable HasImage state), for every nonzero per-axis factor and
every viewport pixel c, `zoom(factor, c)` raises nothing and the derived
matrix sends c to the same image-space point before and after. -/
theorem zoom_anchor_invariance (s : ImageControl) (f : ℚ × ℚ) (c : Vec2)
    (h0 : s.core_image.size ≠ 0) (h1 : s.size.1 ≠ 0) (h2 : s.size.2 ≠ 0)
    (hcor : s.corners.delta.det ≠ 0) (hC : Consistent s)
    (hf1 : f.1 ≠ 0) (hf2 : f.2 ≠ 0) :
    (zoom s f (some c)).2 = none ∧
    (zoom s f (some c)).1.affine_transform_matrix.apply c =
      s.affine_transform_matrix.apply c := by
  have hdet : (get_coords_from_size s.size).delta.det ≠ 0 := by
    rw [det_coords_size]; exact mul_ne_zero h1 h2
  refine ⟨zoom_snd s f (some c) h0 hdet, ?_⟩
  rw [zoom_matrix s f (some c) h0 hdet, zoom_corners s f (some c) h0 hdet]
  simp only [Option.getD_some]
  rw [mulCoords_subVec_eq]
  rw [solveMat_applyCoords_applyCoords _ _ _ hdet]
  rw [AffMat.apply_comp]
  congr 1
  obtain ⟨cx, cy⟩ := c
  simp only [AffMat.apply, Mtx2.mulVec, Vec2.add_def, Vec2.sub_def, Vec2.neg_def,
    Vec2.mk.injEq]
  constructor <;> ring

/-- Witness for C5 at a concrete consistent state, factor and center. -/
theorem zoom_anchor_invariance_witness :
    (mkConsistent demoCorners (10, 8)).core_image.size ≠ 0 ∧
    ((2 : ℚ), (1 / 2 : ℚ)).1 ≠ 0 ∧ ((2 : ℚ), (1 / 2 : ℚ)).2 ≠ 0 ∧
    Consistent (mkConsistent demoCorners (10, 8)) ∧
    ((zoom (mkConsistent demoCorners (10, 8)) (2, 1 / 2) (some ⟨3, 4⟩)).1.affine_transform_matrix.apply ⟨3, 4⟩ =
      (mkConsistent demoCorners (10, 8)).affine_transform_matrix.apply ⟨3, 4⟩) :=
  ⟨by decide, by norm_num, by norm_num, rfl,
    ((zoom_anchor_invariance (mkConsistent demoCorners (10, 8)) (2, 1 / 2) ⟨3, 4⟩
      (by decide) (by norm_num [mkConsistent]) (by norm_num [mkConsistent])
      (by norm_num [mkConsistent, demoCorners, Coords.delta, Mtx2.det]) rfl
      (by norm_num) (by norm_num)).2)⟩

/-- C6: Rotation anchor invariance.  On a HasImage state with
non-collinear corners, nonzero size dimensions and a consistent stored
matrix (every reachable HasImage state, i.e. any prior pan/zoom/rotation),
for every angle (given by its cosine and sine) and every viewport pixel
c, `rotate(angle, c)` raises nothing and the derived matrix sends c to
the same image-space point before and after. -/
theorem rotate_anchor_invariance (s : ImageControl) (cosA sinA : ℚ) (c : Vec2)
    (h0 : s.core_image.size ≠ 0) (h1 : s.size.1 ≠ 0) (h2 : s.size.2 ≠ 0)
    (hcor : s.corners.delta.det ≠ 0) (hC : Consistent s)
    (hangle : cosA ^ 2 + sinA ^ 2 = 1) :
    (rotate s cosA sinA (some c)).2 = none ∧
    (rotate s cosA sinA (some c)).1.affine_transform_matrix.apply c =
      s.affine_transform_matrix.apply c := by
  have hdet : (get_coords_from_size s.size).delta.det ≠ 0 := by
    rw [det_coords_size]; exact mul_ne_zero h1 h2
  refine ⟨rotate_snd s cosA sinA (some c) h0 hdet, ?_⟩
  rw [rotate_matrix s cosA sinA (some c) h0 hdet,
    rotate_corners s cosA sinA (some c) h0 hdet]
  simp only [Option.getD_some]
  rw [rotAbout_eq]
  rw [show s.corners =
      s.affine_transform_matrix.applyCoords (get_coords_from_size s.size) from
    (consistent_apply_basis s hC hdet).symm]
  rw [applyCoords_comp]
  rw [solveMat_of_applyCoords _ _ hdet]
  rw [AffMat.apply_comp]
  generalize s.affine_transform_matrix.apply c = tc
  obtain ⟨tx, ty⟩ := tc
  simp only [AffMat.apply, Mtx2.mulVec, Vec2.add_def, Vec2.sub_def, Vec2.mk.injEq]
  constructor <;> ring

/-- Witness for C6 at a concrete consistent state, angle (cos 3/5,
sin 4/5) and center. -/
theorem rotate_anchor_invariance_witness :
    (mkConsistent demoCorners (10, 8)).core_image.size ≠ 0 ∧
    ((3 / 5 : ℚ) ^ 2 + (4 / 5 : ℚ) ^ 2 = 1) ∧
    Consistent (mkConsistent demoCorners (10, 8)) ∧
    ((rotate (mkConsistent demoCorners (10, 8)) (3 / 5) (4 / 5) (some ⟨3, 4⟩)).1.affine_transform_matrix.apply ⟨3, 4⟩ =
      (mkConsistent demoCorners (10, 8)).affine_transform_matrix.apply ⟨3, 4⟩) :=
  ⟨by decide, by norm_num, rfl,
    ((rotate_anchor_invariance (mkConsistent demoCorners (10, 8)) (3 / 5) (4 / 5) ⟨3, 4⟩
      (by decide) (by norm_num [mkConsistent]) (by norm_num [mkConsistent])
      (by norm_num [mkConsistent, demoCorners, Coords.delta, Mtx2.det]) rfl
      (by norm_num)).2)⟩

/-! ### The invertibility invariant -/

/-- The HasImage invariant of a reachable state: loaded raster,
non-degenerate viewport, non-collinear corners, and a stored matrix that
agrees with the one derived from (size, corners). -/
def StInv (s : ImageControl) : Prop :=
  s.core_image.size ≠ 0 ∧ s.size.1 ≠ 0 ∧ s.size.2 ≠ 0 ∧
  s.corners.delta.det ≠ 0 ∧ Consistent s

theorem StInv.hdet {s : ImageControl} (h : StInv s) :
    (get_coords_from_size s.size).delta.det ≠ 0 := by
  rw [det_coords_size]; exact mul_ne_zero h.2.1 h.2.2.1

/-- Under the invariant the 2x2 linear part of the derived matrix has nonzero
determinant. -/
theorem StInv.matrix_det {s : ImageControl} (h : StInv s) :
    s.affine_transform_matrix.lin.det ≠ 0 := by
  rw [h.2.2.2.2, solveMat_lin_det _ _ h.hdet]
  exact div_ne_zero h.2.2.2.1 h.hdet

theorem pan_preserves_StInv (s : ImageControl) (d : ℚ × ℚ) (h : StInv s) :
    StInv (pan s d).1 := by
  obtain ⟨h0, h1, h2, hcor, hC⟩ := h
  have hdet : (get_coords_from_size s.size).delta.det ≠ 0 := by
    rw [det_coords_size]; exact mul_ne_zero h1 h2
  refine ⟨?_, ?_, ?_, ?_, ?_⟩
  · rw [pan_core_image]; exact h0
  · rw [pan_size]; exact h1
  · rw [pan_size]; exact h2
  · rw [pan_corners s d h0 hdet, AffMat.delta_applyCoords, Coords.delta_addVec,
      Mtx2.det_mul, hC, solveMat_lin_det _ _ hdet, div_mul_cancel₀ _ hdet]
    exact hcor
  · unfold Consistent
    rw [pan_matrix s d h0 hdet, pan_size, pan_corners s d h0 hdet]

theorem zoom_preserves_StInv (s : ImageControl) (f : ℚ × ℚ) (zc : Option Vec2)
    (h : StInv s) (hf1 : f.1 ≠ 0) (hf2 : f.2 ≠ 0) :
    StInv (zoom s f zc).1 := by
  obtain ⟨h0, h1, h2, hcor, hC⟩ := h
  have hdet : (get_coords_from_size s.size).delta.det ≠ 0 := by
    rw [det_coords_size]; exact mul_ne_zero h1 h2
  have hz : (⟨f.1, 0, 0, f.2⟩ : Mtx2).det ≠ 0 := by
    simpa [Mtx2.det] using mul_ne_zero hf1 hf2
  refine ⟨?_, ?_, ?_, ?_, ?_⟩
  · rw [zoom_core_image]; exact h0
  · rw [zoom_size]; exact h1
  · rw [zoom_size]; exact h2
  · rw [zoom_corners s f zc h0 hdet, AffMat.delta_applyCoords, Coords.delta_subVec,
      Mtx2.delta_mulCoords, Mtx2.det_mul, Mtx2.det_mul, hC, solveMat_lin_det _ _ hdet]
    exact mul_ne_zero (div_ne_zero hcor hdet) (mul_ne_zero hz hdet)
  · unfold Consistent
    rw [zoom_matrix s f zc h0 hdet, zoom_size]

theorem rotate_preserves_StInv (s : ImageControl) (cosA sinA : ℚ) (rc : Option Vec2)
    (h : StInv s) (hangle : cosA ^ 2 + sinA ^ 2 = 1) :
    StInv (rotate s cosA sinA rc).1 := by
  obtain ⟨h0, h1, h2, hcor, hC⟩ := h
  have hdet : (get_coords_from_size s.size).delta.det ≠ 0 := by
    rw [det_coords_size]; exact mul_ne_zero h1 h2
  have hr : (⟨cosA, -sinA, sinA, cosA⟩ : Mtx2).det = 1 := by
    simp only [Mtx2.det]; linear_combination hangle
  refine ⟨?_, ?_, ?_, ?_, ?_⟩
  · rw [rotate_core_image]; exact h0
  · rw [rotate_size]; exact h1
  · rw [rotate_size]; exact h2
  · rw [rotate_corners s cosA sinA rc h0 hdet, Coords.delta_addVec,
      Mtx2.delta_mulCoords, Coords.delta_subVec, Mtx2.det_mul, hr, one_mul]
    exact hcor
  · unfold Consistent
    rw [rotate_matrix s cosA sinA rc h0 hdet, rotate_size]

/-- On a state passing the guard, `reset_corners` updates the matrix for
a fitted rectangle basis with nonzero width and height. -/
theorem reset_spec (s : ImageControl) (h1 : s.size.1 ≠ 0) (h2 : s.size.2 ≠ 0)
    (h0 : s.core_image.size ≠ 0) (hh : s.core_image.h ≠ 0) (hw : s.core_image.w ≠ 0) :
    ∃ wd ht : ℚ, ∃ off : Vec2, wd ≠ 0 ∧ ht ≠ 0 ∧
      reset_corners s = update_affine_transform_matrix
        { s with corners := (get_coords_from_size (wd, ht)).subVec off } := by
  have hguard : ¬(s.size.1 = 0 ∨ s.size.2 = 0 ∨ s.core_image.size = 0 ∨
      s.core_image.h = 0 ∨ s.core_image.w = 0) := by
    push_neg
    exact ⟨h1, h2, h0, hh, hw⟩
  have himh : (s.core_image.h : ℚ) ≠ 0 := Nat.cast_ne_zero.mpr hh
  have himw : (s.core_image.w : ℚ) ≠ 0 := Nat.cast_ne_zero.mpr hw
  unfold reset_corners
  rw [if_neg hguard]
  dsimp only
  split_ifs with hA hB
  · exact ⟨_, _, _, himw, himh, rfl⟩
  · exact ⟨_, _, _, mul_ne_zero (div_ne_zero h1 h2) himh, himh, rfl⟩
  · exact ⟨_, _, _, himw, mul_ne_zero (div_ne_zero h2 h1) himw, rfl⟩

theorem reset_preserves_StInv (s : ImageControl) (h : StInv s) :
    StInv (reset_corners s).1 := by
  obtain ⟨h0, h1, h2, hcor, hC⟩ := h
  have hdet : (get_coords_from_size s.size).delta.det ≠ 0 := by
    rw [det_coords_size]; exact mul_ne_zero h1 h2
  have hh : s.core_image.h ≠ 0 := by
    intro hcontra; apply h0; unfold Raster.size; rw [hcontra]; ring
  have hw : s.core_image.w ≠ 0 := by
    intro hcontra; apply h0; unfold Raster.size; rw [hcontra]; ring
  obtain ⟨wd, ht, off, hwd, hht, heq⟩ := reset_spec s h1 h2 h0 hh hw
  rw [heq, update_spec { s with corners := (get_coords_from_size (wd, ht)).subVec off }
    (by simpa using hdet)]
  refine ⟨h0, h1, h2, ?_, rfl⟩
  show ((get_coords_from_size (wd, ht)).subVec off).delta.det ≠ 0
  rw [Coords.delta_subVec, det_coords_size]
  exact mul_ne_zero hwd hht

theorem resize_preserves_StInv (s : ImageControl) (ns : ℚ × ℚ) (h : StInv s)
    (hn1 : ns.1 ≠ 0) (hn2 : ns.2 ≠ 0) :
    StInv (resize s ns).1 := by
  obtain ⟨h0, h1, h2, hcor, hC⟩ := h
  have hdet : (get_coords_from_size s.size).delta.det ≠ 0 := by
    rw [det_coords_size]; exact mul_ne_zero h1 h2
  have hns : (get_coords_from_size ns).delta.det ≠ 0 := by
    rw [det_coords_size]; exact mul_ne_zero hn1 hn2
  have hsz : s.size ≠ (0, 0) := by
    intro hcontra; exact h1 (by rw [hcontra])
  have hInv1 : StInv (zoom s (ns.1 / s.size.1, ns.2 / s.size.2) none).1 :=
    zoom_preserves_StInv s _ none ⟨h0, h1, h2, hcor, hC⟩
      (div_ne_zero hn1 h1) (div_ne_zero hn2 h2)
  have hz := zoom_snd s (ns.1 / s.size.1, ns.2 / s.size.2) none h0 hdet
  unfold resize
  rw [if_pos ⟨h0, hsz⟩, if_neg (by push_neg; exact ⟨h1, h2⟩)]
  split
  next s1 e heqz =>
    rw [heqz] at hz
    simp at hz
  next s1 heqz =>
    have hs1 : StInv s1 := by rw [heqz] at hInv1; exact hInv1
    have hs1core : s1.core_image.size ≠ 0 := hs1.1
    dsimp only
    rw [if_pos (show ({ s1 with size := ns } : ImageControl).core_image.size ≠ 0 from hs1core)]
    rw [update_spec { s1 with size := ns } (by simpa using hns)]
    exact ⟨hs1core, hn1, hn2, hs1.2.2.2.1, rfl⟩

/-! ### Sequences of interactive operations -/

/-- One interactive operation on the view (rotation given by the cosine
and sine of its angle). -/
inductive Op where
  | pan (d : ℚ × ℚ)
  | zoom (f : ℚ × ℚ) (zc : Option Vec2)
  | rotate (cosA sinA : ℚ) (rc : Option Vec2)
  | reset
  | resize (ns : ℚ × ℚ)

/-- The side conditions of claim C3: per-axis zoom factors nonzero, a
genuine angle (cos² + sin² = 1), new size with no zero dimension. -/
def Op.valid : Op → Prop
  | .pan _ => True
  | .zoom f _ => f.1 ≠ 0 ∧ f.2 ≠ 0
  | .rotate cosA sinA _ => cosA ^ 2 + sinA ^ 2 = 1
  | .reset => True
  | .resize ns => ns.1 ≠ 0 ∧ ns.2 ≠ 0

/-- The state after one operation (the effect of the Python method on `self`). -/
def applyOp (s : ImageControl) : Op → ImageControl
  | .pan d => (pan s d).1
  | .zoom f zc => (zoom s f zc).1
  | .rotate cA sA rc => (rotate s cA sA rc).1
  | .reset => (reset_corners s).1
  | .resize ns => (resize s ns).1

/-- The state after a sequence of operations. -/
def applyOps (s : ImageControl) (ops : List Op) : ImageControl :=
  ops.foldl applyOp s

theorem applyOp_preserves_StInv (s : ImageControl) (op : Op) (h : StInv s)
    (hv : op.valid) : StInv (applyOp s op) := by
  cases op with
  | pan d => exact pan_preserves_StInv s d h
  | zoom f zc =>
    obtain ⟨hf1, hf2⟩ := hv
    exact zoom_preserves_StInv s f zc h hf1 hf2
  | rotate cA sA rc => exact rotate_preserves_StInv s cA sA rc h hv
  | reset => exact reset_preserves_StInv s h
  | resize ns =>
    obtain ⟨hn1, hn2⟩ := hv
    exact resize_preserves_StInv s ns h hn1 hn2

/-- C3: Invertibility is an invariant of every reachable HasImage state:
starting from a HasImage state with non-collinear corners, nonzero size
dimensions (and, as in every reachable state, a stored matrix consistent
with (size, corners)), every sequence of pan (any delta), zoom (per-axis
factors nonzero, any center), rotate (any angle, any center), reset, and
resize (new size with no zero dimension) keeps the corners non-collinear
and the 2x2 linear part of the derived transform of nonzero determinant. -/
theorem invertibility_invariant_sequences (s : ImageControl) (ops : List Op)
    (h : StInv s) (hv : ∀ op ∈ ops, op.valid) :
    (applyOps s ops).corners.delta.det ≠ 0 ∧
    (applyOps s ops).affine_transform_matrix.lin.det ≠ 0 ∧
    StInv (applyOps s ops) := by
  have main : StInv (applyOps s ops) := by
    induction ops generalizing s with
    | nil => exact h
    | cons op rest ih =>
      exact ih (applyOp s op)
        (applyOp_preserves_StInv s op h (hv op (List.mem_cons_self op rest)))
        (fun o ho => hv o (List.mem_cons_of_mem op ho))
  exact ⟨main.2.2.2.1, main.matrix_det, main⟩

/-- The concrete HasImage start state for the C3 witness satisfies the
invariant. -/
theorem StInv_mkDemo : StInv (mkConsistent demoCorners (10, 8)) :=
  ⟨by decide, by norm_num [mkConsistent], by norm_num [mkConsistent],
    by norm_num [mkConsistent, demoCorners, Coords.delta, Mtx2.det], rfl⟩

/-- A concrete sequence exercising all five operations. -/
def demoOps : List Op :=
  [Op.pan (3, 4), Op.zoom (2, 1 / 2) (some ⟨1, 1⟩),
   Op.rotate (3 / 5) (4 / 5) none, Op.reset, Op.resize (7, 9)]

theorem demoOps_valid : ∀ op ∈ demoOps, op.valid := by
  intro op hop
  fin_cases hop <;> norm_num [Op.valid]

/-- Witness for C3 on a concrete state and operation sequence. -/
theorem invertibility_invariant_sequences_witness :
    StInv (mkConsistent demoCorners (10, 8)) ∧
    (∀ op ∈ demoOps, op.valid) ∧
    (applyOps (mkConsistent demoCorners (10, 8)) demoOps).corners.delta.det ≠ 0 :=
  ⟨StInv_mkDemo, demoOps_valid,
    (invertibility_invariant_sequences (mkConsistent demoCorners (10, 8)) demoOps
      StInv_mkDemo demoOps_valid).1⟩

/-- C4: For every pair of non-collinear bases with M = solve(basis1,
basis2) and every 2D point p, solve succeeds, invert succeeds, and
apply(invert(M), apply(M, p)) = p exactly (the exact-arithmetic form of
the claim; floats add only the stated 1e-9 tolerance). -/
theorem solve_invert_round_trip (b1 b2 : Coords) (p : Vec2)
    (h1 : b1.delta.det ≠ 0) (h2 : b2.delta.det ≠ 0) :
    affine_transform b1 b2 = .ok (solveMat b1 b2) ∧
    affine_inverse (solveMat b1 b2) = .ok (invAff (solveMat b1 b2)) ∧
    (invAff (solveMat b1 b2)).apply ((solveMat b1 b2).apply p) = p := by
  have hlin : (solveMat b1 b2).lin.det ≠ 0 := by
    rw [solveMat_lin_det _ _ h1]; exact div_ne_zero h2 h1
  refine ⟨?_, ?_, invAff_apply_apply _ p hlin⟩
  · unfold affine_transform; rw [if_neg h1]
  · unfold affine_inverse; rw [if_neg hlin]

/-- Witness for C4 on concrete bases and point. -/
theorem solve_invert_round_trip_witness :
    demoCorners.delta.det ≠ 0 ∧ (get_coords_from_size (4, 5)).delta.det ≠ 0 ∧
    (invAff (solveMat demoCorners (get_coords_from_size (4, 5)))).apply
      ((solveMat demoCorners (get_coords_from_size (4, 5))).apply ⟨3, 7⟩) = ⟨3, 7⟩ :=
  ⟨by norm_num [demoCorners, Coords.delta, Mtx2.det],
    by norm_num [get_coords_from_size, Coords.delta, Mtx2.det],
    (solve_invert_round_trip demoCorners (get_coords_from_size (4, 5)) ⟨3, 7⟩
      (by norm_num [demoCorners, Coords.delta, Mtx2.det])
      (by norm_num [get_coords_from_size, Coords.delta, Mtx2.det])).2.2⟩

/-- The three points of basis1 are collinear or coincident: the two delta
vectors (point1 - point0) and (point2 - point0) are linearly dependent. -/
def CollinearBasis (b : Coords) : Prop :=
  ∃ u v : ℚ, ¬(u = 0 ∧ v = 0) ∧
    u * (b.p1.x - b.p0.x) + v * (b.p2.x - b.p0.x) = 0 ∧
    u * (b.p1.y - b.p0.y) + v * (b.p2.y - b.p0.y) = 0

theorem det_zero_iff_collinear (b : Coords) :
    b.delta.det = 0 ↔ CollinearBasis b := by
  obtain ⟨⟨x0, y0⟩, ⟨x1, y1⟩, ⟨x2, y2⟩⟩ := b
  simp only [CollinearBasis, Coords.delta, Mtx2.det]
  constructor
  · intro hdet
    by_cases hbd : y1 - y0 = 0 ∧ y2 - y0 = 0
    · by_cases hac : x1 - x0 = 0 ∧ x2 - x0 = 0
      · exact ⟨1, 0, by norm_num, by rw [hac.1]; ring, by rw [hbd.1]; ring⟩
      · refine ⟨x2 - x0, -(x1 - x0), ?_, by ring, ?_⟩
        · intro ⟨hc, ha⟩
          exact hac ⟨by linarith [neg_eq_zero.mp ha], hc⟩
        · rw [hbd.1, hbd.2]; ring
    · refine ⟨y2 - y0, -(y1 - y0), ?_, by linear_combination hdet, by ring⟩
      intro ⟨hd, hb⟩
      exact hbd ⟨neg_eq_zero.mp hb, hd⟩
  · rintro ⟨u, v, huv, e1, e2⟩
    have hu : u * ((x1 - x0) * (y2 - y0) - (x2 - x0) * (y1 - y0)) = 0 := by
      linear_combination (y2 - y0) * e1 - (x2 - x0) * e2
    have hv : v * ((x1 - x0) * (y2 - y0) - (x2 - x0) * (y1 - y0)) = 0 := by
      linear_combination (x1 - x0) * e2 - (y1 - y0) * e1
    rcases not_and_or.mp huv with h | h
    · exact (mul_eq_zero.mp hu).resolve_left h
    · exact (mul_eq_zero.mp hv).resolve_left h

/-- C9: solve(basis1, basis2) fails (with the LinAlgError raised by
inverting the singular delta matrix) if and only if the three points of
basis1 are collinear or coincident; whenever it succeeds it returns the
solved matrix, every entry of which is a finite rational by construction
(the exact-arithmetic reading of "no NaN/Inf entries"). -/
theorem solve_fails_iff_collinear (b1 b2 : Coords) :
    ((∃ e, affine_transform b1 b2 = .error e) ↔ CollinearBasis b1) ∧
    (¬ CollinearBasis b1 → affine_transform b1 b2 = .ok (solveMat b1 b2)) := by
  have hiff := det_zero_iff_collinear b1
  constructor
  · constructor
    · rintro ⟨e, he⟩
      by_cases hdet : b1.delta.det = 0
      · exact hiff.mp hdet
      · rw [affine_transform, if_neg hdet] at he
        cases he
    · intro hcol
      exact ⟨.linAlg, by rw [affine_transform, if_pos (hiff.mpr hcol)]⟩
  · intro hncol
    rw [affine_transform, if_neg (fun hd => hncol (hiff.mp hd))]

/-- Three distinct collinear points. -/
def colDemo : Coords := ⟨⟨1, 1⟩, ⟨2, 2⟩, ⟨3, 3⟩⟩

/-- Witness for C9: a non-collinear basis on which solve succeeds, and a
collinear basis on which solve errors. -/
theorem solve_fails_iff_collinear_witness :
    ¬ CollinearBasis demoCorners ∧
    affine_transform demoCorners (get_coords_from_size (4, 5)) =
      .ok (solveMat demoCorners (get_coords_from_size (4, 5))) ∧
    CollinearBasis colDemo ∧
    (∃ e, affine_transform colDemo (get_coords_from_size (4, 5)) = .error e) := by
  have hnc : ¬ CollinearBasis demoCorners := fun hcol =>
    absurd ((det_zero_iff_collinear demoCorners).mpr hcol)
      (by norm_num [demoCorners, Coords.delta, Mtx2.det])
  have hcol : CollinearBasis colDemo :=
    ⟨2, -1, by norm_num, by norm_num [colDemo], by norm_num [colDemo]⟩
  exact ⟨hnc, (solve_fails_iff_collinear demoCorners (get_coords_from_size (4, 5))).2 hnc,
    hcol, ((solve_fails_iff_collinear colDemo (get_coords_from_size (4, 5))).1).mpr hcol⟩

/-- C8: When the image is relatively taller (image aspect h/w strictly
greater than viewport aspect H/W), `reset_corners` raises nothing and
sets the corners to the basis of the fitted rectangle whose height is the
image height, whose width is viewport_aspect (W/H) times that height,
shifted by the horizontal offset ((fitted width - image width)/2, 0). -/
theorem reset_taller_branch (s : ImageControl)
    (h1 : s.size.1 ≠ 0) (h2 : s.size.2 ≠ 0) (h0 : s.core_image.size ≠ 0)
    (hh : s.core_image.h ≠ 0) (hw : s.core_image.w ≠ 0)
    (htaller : (s.core_image.h : ℚ) / s.core_image.w > s.size.2 / s.size.1) :
    (reset_corners s).2 = none ∧
    (reset_corners s).1.corners =
      (get_coords_from_size
          (s.size.1 / s.size.2 * s.core_image.h, (s.core_image.h : ℚ))).subVec
        ⟨(s.size.1 / s.size.2 * s.core_image.h - s.core_image.w) / 2, 0⟩ := by
  have hdet : (get_coords_from_size s.size).delta.det ≠ 0 := by
    rw [det_coords_size]; exact mul_ne_zero h1 h2
  have hguard : ¬(s.size.1 = 0 ∨ s.size.2 = 0 ∨ s.core_image.size = 0 ∨
      s.core_image.h = 0 ∨ s.core_image.w = 0) := by
    push_neg
    exact ⟨h1, h2, h0, hh, hw⟩
  unfold reset_corners
  rw [if_neg hguard]
  dsimp only
  rw [if_neg (ne_of_gt htaller), if_pos htaller]
  rw [update_spec { s with corners := (get_coords_from_size (s.size.1 / s.size.2 * s.core_image.h, (s.core_image.h : ℚ))).subVec ⟨(s.size.1 / s.size.2 * s.core_image.h - s.core_image.w) / 2, 0⟩ } (by simpa using hdet)]
  exact ⟨rfl, rfl⟩

/-- Scenario B state: viewport 800x600, square 400x400 image. -/
def rasterB : Raster := ⟨400, 400, 3, fun _ _ _ => 0⟩

/-- Scenario B state as produced by `__init__(image, size=(800, 600))`
just before `reset_corners` recomputes the corners. -/
def stateB : ImageControl :=
  ⟨rasterB, AffMat.zeroM, ⟨⟨0, 0⟩, ⟨0, 0⟩, ⟨0, 0⟩⟩, (800, 600), (0, 0, 0)⟩

/-- Witness for C8 at Scenario B: fitted height 400, fitted width
800/600*400 = 1600/3, horizontal offset (1600/3 - 400)/2 = 200/3. -/
theorem reset_taller_branch_witness :
    ((stateB.core_image.h : ℚ) / stateB.core_image.w > stateB.size.2 / stateB.size.1) ∧
    stateB.size.1 / stateB.size.2 * (stateB.core_image.h : ℚ) = 1600 / 3 ∧
    (stateB.size.1 / stateB.size.2 * (stateB.core_image.h : ℚ) -
      stateB.core_image.w) / 2 = 200 / 3 ∧
    (reset_corners stateB).1.corners =
      (get_coords_from_size
          (stateB.size.1 / stateB.size.2 * stateB.core_image.h,
            (stateB.core_image.h : ℚ))).subVec
        ⟨(stateB.size.1 / stateB.size.2 * stateB.core_image.h -
            stateB.core_image.w) / 2, 0⟩ :=
  ⟨by norm_num [stateB, rasterB], by norm_num [stateB, rasterB],
    by norm_num [stateB, rasterB],
    (reset_taller_branch stateB (by norm_num [stateB]) (by norm_num [stateB])
      (by decide) (by decide) (by decide) (by norm_num [stateB, rasterB])).2⟩

theorem update_snd_err (s : ImageControl)
    (h : (get_coords_from_size s.size).delta.det = 0) :
    (update_affine_transform_matrix s).2 = some Err.linAlg := by
  rw [update_err s h]

/-- C1 (amended): On a state with a loaded raster and nonzero viewport
size dimensions — where matrix derivation cannot fail — get_image never
propagates an error: if inverting the derived matrix fails
(SingularMatrix), it returns the zero-size raster, and otherwise it
returns the resampled output.  (With a zero size dimension the
derivation itself fails and the error propagates: see the
counterexample.) -/
theorem get_image_no_error_on_nonzero_size (s : ImageControl)
    (h0 : s.core_image.size ≠ 0) (h1 : s.size.1 ≠ 0) (h2 : s.size.2 ≠ 0) :
    (∀ e, (get_image s).2 ≠ .error e) ∧
    ((solveMat (get_coords_from_size s.size) s.corners).lin.det = 0 →
      (get_image s).2 = .raster Raster.empty ∧ Raster.empty.size = 0) ∧
    ((solveMat (get_coords_from_size s.size) s.corners).lin.det ≠ 0 →
      (get_image s).2 = .resampled s.core_image
        (invAff (solveMat (get_coords_from_size s.size) s.corners)) s.size
        s.background_color) := by
  have hdet : (get_coords_from_size s.size).delta.det ≠ 0 := by
    rw [det_coords_size]; exact mul_ne_zero h1 h2
  unfold get_image
  rw [if_neg h0, update_spec s hdet]
  dsimp only
  unfold affine_inverse
  by_cases hlin : (solveMat (get_coords_from_size s.size) s.corners).lin.det = 0
  · rw [if_pos hlin]
    dsimp only
    refine ⟨?_, fun _ => ⟨rfl, rfl⟩, fun hne => absurd hlin hne⟩
    intro e h
    simp at h
  · rw [if_neg hlin]
    dsimp only
    refine ⟨?_, fun heq => absurd heq hlin, fun _ => rfl⟩
    intro e h
    simp at h

/-- All-zero corners, as left by `__init__` before any successful reset. -/
def zeroCorners : Coords := ⟨⟨0, 0⟩, ⟨0, 0⟩, ⟨0, 0⟩⟩

/-- A state with a loaded raster whose derived matrix is singular
(collinear corners) but whose viewport size is fine. -/
def singularCornersState : ImageControl :=
  ⟨demoRaster, AffMat.zeroM, zeroCorners, (4, 5), (0, 0, 0)⟩

/-- Witness for the amended C1: on the singular-corners state get_image
returns the zero-size raster (and not an error). -/
theorem get_image_no_error_on_nonzero_size_witness :
    singularCornersState.core_image.size ≠ 0 ∧
    (singularCornersState.size.1 : ℚ) ≠ 0 ∧ (singularCornersState.size.2 : ℚ) ≠ 0 ∧
    (solveMat (get_coords_from_size singularCornersState.size)
      singularCornersState.corners).lin.det = 0 ∧
    (get_image singularCornersState).2 = .raster Raster.empty := by
  have hlin : (solveMat (get_coords_from_size singularCornersState.size)
      singularCornersState.corners).lin.det = 0 := by
    norm_num [singularCornersState, zeroCorners, solveMat, Coords.delta, Mtx2.mul,
      Mtx2.inv, Mtx2.det, get_coords_from_size]
  exact ⟨by decide, by norm_num [singularCornersState],
    by norm_num [singularCornersState], hlin,
    ((get_image_no_error_on_nonzero_size singularCornersState (by decide)
      (by norm_num [singularCornersState]) (by norm_num [singularCornersState])).2.1
      hlin).1⟩

/-- The state reached by `ImageControl(image, size=(0, 5))`: the raster
is loaded but `reset_corners` bails out on the zero width, leaving the
zeroed matrix and corners. -/
def stateC1 : ImageControl := (initImageControl (some demoRaster) (0, 5) (0, 0, 0)).1

theorem stateC1_eq :
    stateC1 = ⟨demoRaster, AffMat.zeroM, zeroCorners, (0, 5), (0, 0, 0)⟩ := by
  unfold stateC1 initImageControl load_image
  dsimp only
  unfold reset_corners
  rw [if_pos (Or.inl rfl)]
  rfl

/-- C1 counterexample: on the HasImage state reached by
`__init__(image, size=(0, 5))` — a non-empty source raster is loaded —
matrix derivation inside get_image fails (InvalidBasis), and because
`update_affine_transform_matrix()` is called before the `try` block the
LinAlgError propagates out of get_image instead of a zero-size raster
being returned. -/
theorem get_image_propagates_error_cex :
    stateC1.core_image.size ≠ 0 ∧ (get_image stateC1).2 = .error Err.linAlg := by
  rw [stateC1_eq]
  constructor
  · decide
  · unfold get_image
    rw [if_neg (by decide)]
    rw [update_err (⟨demoRaster, AffMat.zeroM, zeroCorners, (0, 5), (0, 0, 0)⟩ : ImageControl)
      (by norm_num [det_coords_size])]

/-- C2 (amended): While no raster is loaded, pan, zoom, and rotate leave
the entire state unchanged and raise nothing, resize changes only the
size field (to the new size, raising nothing) and get_image returns the
(zero-size) stored raster.  But when a raster IS loaded and the viewport
size has a zero dimension — e.g. after `resize((0, H))` — pan, zoom and
rotate are not no-ops: they raise LinAlgError; get_image raises as well,
and resize raises ZeroDivisionError whenever the old size is not exactly
(0, 0). -/
theorem degenerate_state_behavior (s : ImageControl) (d f : ℚ × ℚ)
    (zc rc : Option Vec2) (cA sA : ℚ) (ns : ℚ × ℚ) :
    (s.core_image.size = 0 →
      pan s d = (s, none) ∧ zoom s f zc = (s, none) ∧
      rotate s cA sA rc = (s, none) ∧
      resize s ns = ({ s with size := ns }, none) ∧
      get_image s = (s, .raster s.core_image)) ∧
    (s.core_image.size ≠ 0 → (s.size.1 = 0 ∨ s.size.2 = 0) →
      (pan s d).2 = some Err.linAlg ∧ (zoom s f zc).2 = some Err.linAlg ∧
      (rotate s cA sA rc).2 = some Err.linAlg ∧
      (∃ e, (get_image s).2 = .error e) ∧
      (s.size ≠ (0, 0) → (resize s ns).2 = some Err.zeroDivision)) := by
  constructor
  · intro h
    refine ⟨?_, ?_, ?_, ?_, ?_⟩
    · unfold pan; rw [if_pos h]
    · unfold zoom; rw [if_pos h]
    · unfold rotate; rw [if_pos h]
    · unfold resize
      rw [if_neg (by simp [h])]
      dsimp only
      rw [if_neg (by simp [h])]
    · unfold get_image; rw [if_pos h]
  · intro h0 hzero
    have hdet0 : (get_coords_from_size s.size).delta.det = 0 := by
      rw [det_coords_size]
      rcases hzero with hz | hz <;> rw [hz] <;> ring
    refine ⟨?_, ?_, ?_, ?_, ?_⟩
    · unfold pan
      rw [if_neg h0]
      exact update_snd_err _ hdet0
    · unfold zoom
      rw [if_neg h0]
      exact update_snd_err _ hdet0
    · unfold rotate
      rw [if_neg h0]
      exact update_snd_err _ hdet0
    · unfold get_image
      rw [if_neg h0, update_err s hdet0]
      exact ⟨Err.linAlg, rfl⟩
    · intro hs00
      unfold resize
      rw [if_pos ⟨h0, hs00⟩, if_pos hzero]

/-- The freshly constructed `ImageControl()` state: no raster loaded. -/
def emptyState : ImageControl :=
  ⟨Raster.empty, AffMat.zeroM, zeroCorners, (7, 7), (0, 0, 0)⟩

/-- A loaded raster together with the degenerate viewport size (0, 5). -/
def stateC2 : ImageControl :=
  ⟨demoRaster, AffMat.zeroM, zeroCorners, (0, 5), (0, 0, 0)⟩

/-- Witness for the amended C2 at concrete states on both sides. -/
theorem degenerate_state_behavior_witness :
    pan emptyState (1, 2) = (emptyState, none) ∧
    resize emptyState (9, 9) = ({ emptyState with size := (9, 9) }, none) ∧
    (pan stateC2 (1, 2)).2 = some Err.linAlg ∧
    (resize stateC2 (9, 9)).2 = some Err.zeroDivision :=
  ⟨((degenerate_state_behavior emptyState (1, 2) (1, 1) none none 1 0 (9, 9)).1
      (by decide)).1,
    ((degenerate_state_behavior emptyState (1, 2) (1, 1) none none 1 0 (9, 9)).1
      (by decide)).2.2.2.1,
    ((degenerate_state_behavior stateC2 (1, 2) (1, 1) none none 1 0 (9, 9)).2
      (by decide) (Or.inl rfl)).1,
    ((degenerate_state_behavior stateC2 (1, 2) (1, 1) none none 1 0 (9, 9)).2
      (by decide) (Or.inl rfl)).2.2.2.2
      (by simp [stateC2, Prod.ext_iff])⟩

/-- C2 counterexample: with an image loaded and viewport size (0, 5)
(e.g. after resizing to zero width), `pan` is not a no-op raising
nothing — it raises LinAlgError from the matrix refresh. -/
theorem pan_zero_size_raises_cex : (pan stateC2 (1, 2)).2 = some Err.linAlg := by
  unfold pan
  rw [if_neg (by decide)]
  exact update_snd_err _ (by norm_num [stateC2, det_coords_size])

/-- C10: pan, zoom, rotate and get_image never modify the source raster,
the viewport size, or the background color — whatever branch runs (guard,
success, or raising path, whose partially mutated state is the first
component) — and get_image additionally leaves the corners unchanged; of
the observable state only the corners and the matrix derived from them
can change. -/
theorem mutators_frame_conditions (s : ImageControl) (d f : ℚ × ℚ)
    (zc rc : Option Vec2) (cA sA : ℚ) :
    (pan s d).1.core_image = s.core_image ∧
    (pan s d).1.size = s.size ∧
    (pan s d).1.background_color = s.background_color ∧
    (zoom s f zc).1.core_image = s.core_image ∧
    (zoom s f zc).1.size = s.size ∧
    (zoom s f zc).1.background_color = s.background_color ∧
    (rotate s cA sA rc).1.core_image = s.core_image ∧
    (rotate s cA sA rc).1.size = s.size ∧
    (rotate s cA sA rc).1.background_color = s.background_color ∧
    (get_image s).1.core_image = s.core_image ∧
    (get_image s).1.corners = s.corners ∧
    (get_image s).1.size = s.size ∧
    (get_image s).1.background_color = s.background_color :=
  ⟨pan_core_image s d, pan_size s d, pan_background s d,
    zoom_core_image s f zc, zoom_size s f zc, zoom_background s f zc,
    rotate_core_image s cA sA rc, rotate_size s cA sA rc,
    rotate_background s cA sA rc,
    (get_image_frame s).1, (get_image_frame s).2.1, (get_image_frame s).2.2.1,
    (get_image_frame s).2.2.2⟩
